import Mathlib

/-!
Verification development for the Agothe quantum-agent core.

This file gives a shallow embedding, in exact real arithmetic, of the
agent model implemented in `agothe_app/core/quantum_consciousness.py`,
`agothe_app/core/darwin_evolution_protocol.py` and
`agothe_app/navigation/agent_dashboard.py`, together with theorems about
the behaviours those modules exhibit.

Conventions of the embedding:
* numpy arrays become `List ℂ` (quantum states) or `List ℝ` (intent and
  memory vectors); float arithmetic is modelled by exact real arithmetic;
* Python dicts keyed by strings become association lists
  (`List (String × List ℝ)`) with dict-assignment update semantics;
* operations that can raise in Python are `Option`-valued, `none`
  standing for the raised exception;
* every stochastic draw (`np.random.*`) is supplied by an explicit
  oracle structure, so each run is a deterministic function of the
  oracle;
* class hierarchies become a variant tag on a single agent structure
  (the Python class `ConsciousnessAxiom` and its subclasses).
-/

namespace AgotheSpec

/-- The epsilon `1e-12` used inside `coherence` to guard `log 0`. -/
def epsP : ℝ := 1e-12

/-! ### numpy-style vector helpers -/

/-- Elementwise vector addition of real vectors (`numpy +` on same-shape
arrays). -/
def vaddR (v w : List ℝ) : List ℝ := List.zipWith (fun a b => a + b) v w

/-- Scalar multiplication of a real vector. -/
def smulR (c : ℝ) (v : List ℝ) : List ℝ := v.map (fun x => c * x)

/-- Elementwise vector addition of complex vectors. -/
def vaddC (v w : List ℂ) : List ℂ := List.zipWith (fun a b => a + b) v w

/-- Scalar multiplication of a complex vector by a real scalar. -/
def smulC (c : ℝ) (v : List ℂ) : List ℂ := v.map (fun x => (c : ℂ) * x)

/-- `np.linalg.norm` of a real vector: the L2 norm. -/
noncomputable def l2normR (v : List ℝ) : ℝ :=
  Real.sqrt ((v.map (fun x => x * x)).sum)

/-- `np.linalg.norm` of a complex vector: the L2 norm
(square root of the sum of the squared moduli). -/
noncomputable def l2normC (v : List ℂ) : ℝ :=
  Real.sqrt ((v.map Complex.normSq).sum)

/-- The complex one-hot vector of dimension `n` with a `1` at index `j`
(`np.zeros_like` followed by setting one entry to `1.0`). -/
def oneHotC (n j : ℕ) : List ℂ :=
  (List.range n).map (fun i => if i = j then 1 else 0)

/-- The canonical basis state `|0⟩` of dimension `n`. -/
def canonicalC (n : ℕ) : List ℂ := oneHotC n 0

/-- The real one-hot vector of dimension `n` with a `1` at index `j`. -/
def oneHotR (n j : ℕ) : List ℝ :=
  (List.range n).map (fun i => if i = j then 1 else 0)

/-- The real canonical basis vector of dimension `n`. -/
def canonicalR (n : ℕ) : List ℝ := oneHotR n 0

/-- `_normalize` from `quantum_consciousness.py` (complex case): divide by
the L2 norm; a zero vector falls back to the canonical `|0⟩` basis state. -/
noncomputable def qcNormalizeC (v : List ℂ) : List ℂ :=
  if l2normC v = 0 then canonicalC v.length
  else v.map (fun x => x / (l2normC v : ℂ))

/-- `_normalize` from `quantum_consciousness.py` applied to a real
(float-dtype) array, as happens for intent and memory vectors.  The
zero-vector fallback produces the canonical basis vector (numerically the
same values the Python code stores, ignoring the complex dtype
promotion). -/
noncomputable def qcNormalizeR (v : List ℝ) : List ℝ :=
  if l2normR v = 0 then canonicalR v.length
  else v.map (fun x => x / l2normR v)

/-- `_normalize` from `darwin_evolution_protocol.py` (complex case): a
zero vector is returned unchanged. -/
noncomputable def evoNormalizeC (v : List ℂ) : List ℂ :=
  if l2normC v = 0 then v else v.map (fun x => x / (l2normC v : ℂ))

/-- `_normalize` from `darwin_evolution_protocol.py` (real case). -/
noncomputable def evoNormalizeR (v : List ℝ) : List ℝ :=
  if l2normR v = 0 then v else v.map (fun x => x / l2normR v)

/-! ### String-keyed memory maps (Python dicts) -/

/-- Dictionary lookup on an association list (`dict.__getitem__` /
`key in dict`). -/
def lookupKV (k : String) : List (String × List ℝ) → Option (List ℝ)
  | [] => none
  | (k', v) :: rest => if k = k' then some v else lookupKV k rest

/-- Dictionary assignment `d[k] = v`: replace the binding if present,
otherwise append it. -/
def insertKV (k : String) (v : List ℝ) :
    List (String × List ℝ) → List (String × List ℝ)
  | [] => [(k, v)]
  | (k', v') :: rest =>
      if k = k' then (k, v) :: rest else (k', v') :: insertKV k v rest

/-! ### The agent data model -/

/-- Capability variants of the Python class hierarchy rooted at the base
consciousness class: base, `QuantumMemoryNetwork`,
`QuantumLearningNetwork` (a memory network as well) and the
collapse-specialist subclass. -/
inductive AgentVariant
  | base
  | memoryNet
  | learningNet
  | collapseSpec
deriving DecidableEq

/-- An agent: quantum state, intent vector, label and the two memory
maps, together with its capability variant. -/
structure QAgent where
  variant : AgentVariant
  state : List ℂ
  intent : List ℝ
  label : String
  memory : List (String × List ℝ)
  memory_entangled : List (String × List ℝ)

instance : Inhabited QAgent :=
  ⟨{ variant := .base, state := [], intent := [], label := "",
     memory := [], memory_entangled := [] }⟩

/-- An agent is memory-capable when it is an instance of
`QuantumMemoryNetwork` (which `QuantumLearningNetwork` subclasses). -/
def memoryCapable (a : QAgent) : Prop :=
  a.variant = AgentVariant.memoryNet ∨ a.variant = AgentVariant.learningNet

instance (a : QAgent) : Decidable (memoryCapable a) := by
  unfold memoryCapable; infer_instance

/-- Dataclass construction plus `__post_init__`: the state is normalised
(with the `|0⟩` fallback) and a missing intent defaults to `zeros(3)`. -/
noncomputable def mkAgent (variant : AgentVariant) (state : List ℂ)
    (intent : Option (List ℝ)) (label : String) : QAgent :=
  { variant := variant,
    state := qcNormalizeC state,
    intent := intent.getD (List.replicate 3 0),
    label := label,
    memory := [],
    memory_entangled := [] }

/-! ### Agent state operations -/

/-- `matrix @ state`: matrix–vector product, rows paired with the state. -/
def matVecC (m : List (List ℂ)) (v : List ℂ) : List ℂ :=
  m.map (fun row => (List.zipWith (fun a b => a * b) row v).sum)

/-- `apply_unitary`: replace the state with the normalised image under the
matrix. -/
noncomputable def apply_unitary (m : List (List ℂ)) (a : QAgent) : QAgent :=
  { a with state := qcNormalizeC (matVecC m a.state) }

/-- `measure` without a custom basis, with the sampled outcome index
supplied by the caller (the random draw): collapse the state to the
one-hot vector at the outcome. -/
def measureStd (outcome : ℕ) (a : QAgent) : QAgent :=
  { a with state := oneHotC a.state.length outcome }

/-- `measure` with an explicit collapse basis and sampled outcome: the
state becomes the normalised chosen basis vector. -/
noncomputable def measureBasis (basis : List (List ℂ)) (outcome : ℕ)
    (a : QAgent) : QAgent :=
  { a with state := qcNormalizeC (basis.getD outcome []) }

/-! ### Coherence -/

/-- The entropy computed inside `coherence`:
`-Σ p·log (p + 1e-12)` over a list of probabilities. -/
noncomputable def entropyOf (probs : List ℝ) : ℝ :=
  -((probs.map (fun p => p * Real.log (p + epsP))).sum)

/-- `coherence` of a raw state vector: probabilities are squared moduli of
the amplitudes, and the score is `exp (-entropy)`. -/
noncomputable def stateCoherence (state : List ℂ) : ℝ :=
  Real.exp (-(entropyOf (state.map Complex.normSq)))

/-- `coherence()` of an agent. -/
noncomputable def coherence (a : QAgent) : ℝ := stateCoherence a.state

/-! ### Intent operations -/

/-- The dimension-reconciliation step of `add_intent`: when the delta's
shape differs from the stored intent's, a zero vector of the delta's
length receives the common prefix of the stored intent. -/
def intentReconcile (intent delta : List ℝ) : List ℝ :=
  if delta.length = intent.length then intent
  else intent.take delta.length ++
    List.replicate (delta.length - intent.length) 0

/-- The pre-normalisation vector of `add_intent`:
`intent + weight·delta` after reconciliation. -/
def intentPreSum (intent delta : List ℝ) (weight : ℝ) : List ℝ :=
  vaddR (intentReconcile intent delta) (smulR weight delta)

/-- `add_intent` on the intent vector: normalise the blended vector with
the `quantum_consciousness._normalize` helper. -/
noncomputable def add_intent (intent delta : List ℝ) (weight : ℝ) : List ℝ :=
  qcNormalizeR (intentPreSum intent delta weight)

/-- `add_intent` as an agent mutation (the method stores the result in
`self.intent`). -/
noncomputable def addIntentA (a : QAgent) (delta : List ℝ) (weight : ℝ) :
    QAgent :=
  { a with intent := add_intent a.intent delta weight }

/-! ### Memory entanglement -/

/-- `entangle_memory` of `QuantumMemoryNetwork`: on success, return the
normalised blend and the two agents with the blend written into both
`memory_entangled` maps; the missing-key `KeyError` is `none`, with both
agents returned unchanged. -/
noncomputable def entangle_memory (a b : QAgent) (key : String)
    (strength : ℝ) : Option (List ℝ) × QAgent × QAgent :=
  match lookupKV key a.memory, lookupKV key b.memory with
  | some va, some vb =>
      let combined :=
        qcNormalizeR (vaddR (smulR strength va) (smulR (1 - strength) vb))
      (some combined,
       { a with memory_entangled := insertKV key combined a.memory_entangled },
       { b with memory_entangled := insertKV key combined b.memory_entangled })
  | _, _ => (none, a, b)

/-! ### Darwin evolution protocol -/

/-- `EvolutionEvent`: the per-generation history record. -/
structure EvolutionEvent where
  generation : ℕ
  population_size : ℕ
  mean_coherence : ℝ
  best_fitness : ℝ
  annotations : List (String × ℝ)

/-- Oracle supplying every `np.random` draw of one evolution run, indexed
by generation and child number: the crossover blend `alpha`, the survivor
pair, the crossover memory-key pick, and the two mutation jitters. -/
structure EvolutionRng where
  alpha : ℕ → ℕ → ℝ
  pairPick : ℕ → ℕ → ℕ × ℕ
  memPick : ℕ → ℕ → ℕ
  jitterS : ℕ → ℕ → List ℂ
  jitterI : ℕ → ℕ → List ℝ

/-- `evaluate_agent`: fitness blends coherence with the squashed intent
norm. -/
noncomputable def evaluate_agent (a : QAgent) : ℝ :=
  0.7 * coherence a + 0.3 * Real.tanh (l2normR a.intent + 1e-9)

/-- `mutate_agent` with the two Gaussian draws supplied explicitly:
jitter state and intent, then construct a `QuantumLearningNetwork` clone
carrying the parent's label and a copy of its memory map. -/
noncomputable def mutate_agent (jS : List ℂ) (jI : List ℝ) (a : QAgent)
    (rate : ℝ) : QAgent :=
  let mutated_state := evoNormalizeC (vaddC a.state (smulC rate jS))
  let mutated_intent := evoNormalizeR (vaddR a.intent (smulR rate jI))
  let clone := mkAgent .learningNet mutated_state (some mutated_intent) a.label
  { clone with memory := a.memory }

/-- `crossover_agents` with the blend ratio and memory-key pick supplied
explicitly.  When both parents have non-empty memory, the key is drawn
from the first parent's keys; looking that key up in the second parent's
memory can raise `KeyError` in Python, modelled as `none`. -/
noncomputable def crossover_agents (alpha : ℝ) (pick : ℕ) (a b : QAgent) :
    Option QAgent :=
  let state := evoNormalizeC (vaddC (smulC alpha a.state)
    (smulC (1 - alpha) b.state))
  let intent := evoNormalizeR (vaddR (smulR alpha a.intent)
    (smulR (1 - alpha) b.intent))
  let offspring := mkAgent .learningNet state (some intent) "offspring"
  if a.memory = [] ∨ b.memory = [] then some offspring
  else
    let key := (a.memory.map Prod.fst).getD (pick % a.memory.length) ""
    match lookupKV key a.memory, lookupKV key b.memory with
    | some va, some vb =>
        some { offspring with
          memory := insertKV key
            (evoNormalizeR (vaddR (smulR alpha va) (smulR (1 - alpha) vb)))
            offspring.memory }
    | _, _ => none

/-- `np.argsort(fitness)[::-1]`: the stable ascending argsort of the
fitness values, reversed.  Real-number comparisons use classical
decidability. -/
noncomputable def argsortDesc (fitness : List ℝ) : List ℕ :=
  ((List.range fitness.length).mergeSort
    (fun i j =>
      @decide (fitness.getD i 0 ≤ fitness.getD j 0)
        (Classical.propDecidable _))).reverse

/-- `np.max` over a list: `none` on the empty list (where numpy raises
`ValueError`). -/
def npMax : List ℝ → Option ℝ
  | [] => none
  | x :: xs => some (xs.foldl max x)

open Classical in
/-- `np.argmax` over a list: the first index attaining the maximum;
`none` on the empty list (where numpy raises). -/
noncomputable def argmaxIdx : List ℝ → Option ℕ
  | [] => none
  | x :: xs =>
    match argmaxIdx xs with
    | none => some 0
    | some j => if xs.getD j 0 ≤ x then some 0 else some (j + 1)

/-- The survivor selection of one generation: the top
`max 2 ⌊0.6·N⌋` agents by descending fitness (exact arithmetic models
the float product `len(agents) * 0.6`). -/
noncomputable def survivorsOf (agents : List QAgent) : List QAgent :=
  ((argsortDesc (agents.map evaluate_agent)).take
    (max 2 (3 * agents.length / 5))).map (fun i => agents.getD i default)

/-- One child of the reproduction loop: pick two survivors (uniform with
replacement, indices supplied by the oracle), cross them over, then
mutate; a crossover `KeyError` propagates as `none`. -/
noncomputable def childOf (rng : EvolutionRng) (rate : ℝ) (gen c : ℕ)
    (survivors : List QAgent) : Option QAgent :=
  (crossover_agents (rng.alpha gen c) (rng.memPick gen c)
    (survivors.getD ((rng.pairPick gen c).1 % survivors.length) default)
    (survivors.getD ((rng.pairPick gen c).2 % survivors.length) default)).map
  (fun child => mutate_agent (rng.jitterS gen c) (rng.jitterI gen c)
    child rate)

/-- One generation of `recursive_consciousness_evolution`: evaluate,
sort, keep the survivors, refill by crossover-then-mutation, and produce
the `EvolutionEvent` for the generation.  An empty population fails at
`np.max` of the empty fitness array; a crossover `KeyError` also yields
`none`. -/
noncomputable def genStep (rng : EvolutionRng) (rate : ℝ) (gen : ℕ) :
    List QAgent → Option (List QAgent × EvolutionEvent)
  | [] => none
  | a0 :: rest =>
      let agents := a0 :: rest
      let survivors := survivorsOf agents
      match (List.range (agents.length - survivors.length)).mapM
          (fun c => childOf rng rate gen c survivors) with
      | none => none
      | some children =>
          let next := survivors ++ children
          some (next,
            { generation := gen,
              population_size := next.length,
              mean_coherence := (next.map coherence).sum / next.length,
              best_fitness := (rest.map evaluate_agent).foldl max
                (evaluate_agent a0),
              annotations := [] })

/-- The generation loop.  The second component is the history the
protocol accumulates; on failure the events appended before the failing
generation are kept and the population result is `none`. -/
noncomputable def evolveLoop (rng : EvolutionRng) (rate : ℝ) :
    ℕ → ℕ → List QAgent → Option (List QAgent) × List EvolutionEvent
  | 0, _, agents => (some agents, [])
  | d + 1, gen, agents =>
      match genStep rng rate gen agents with
      | none => (none, [])
      | some (next, ev) =>
          let rec' := evolveLoop rng rate d (gen + 1) next
          (rec'.1, ev :: rec'.2)

/-- `recursive_consciousness_evolution`: run the generations, then return
the first highest-fitness agent of the final population, together with
the accumulated history. -/
noncomputable def recursive_consciousness_evolution (rng : EvolutionRng)
    (population : List QAgent) (depth : ℕ) (rate : ℝ) :
    Option QAgent × List EvolutionEvent :=
  let run := evolveLoop rng rate depth 0 population
  match run.1 with
  | none => (none, run.2)
  | some finalPop =>
      match argmaxIdx (finalPop.map evaluate_agent) with
      | none => (none, run.2)
      | some i => (some (finalPop.getD i default), run.2)

/-! ### Agent dashboard (orchestration layer) -/

/-- The shape of the structured results the dashboard returns. -/
structure DashResult where
  success : Bool
  error : Option String
  message : Option String
deriving DecidableEq

/-- `AgentDashboard`: agent list, active-index set, dashboard state and a
last-update stamp (Python's `datetime` modelled as a counter supplied by
the caller on each mutating operation). -/
structure AgentDashboard where
  agents : List QAgent
  active_agents : Finset ℤ
  dstate : String
  last_update : ℕ

/-- Dashboard construction plus `__post_init__`: an empty active set is
replaced by all current indices. -/
def initDashboard (agents : List QAgent) (active : Finset ℤ) (now : ℕ) :
    AgentDashboard :=
  { agents := agents,
    active_agents :=
      if active = ∅ then Finset.Ico (0 : ℤ) agents.length else active,
    dstate := "monitoring",
    last_update := now }

/-- The spec's dashboard invariant: every active index is a valid index
into the agent list. -/
def dashInvariant (d : AgentDashboard) : Prop :=
  ∀ i ∈ d.active_agents, 0 ≤ i ∧ i < (d.agents.length : ℤ)

/-- `update_agent_intent`: validate the index, blend the new intent with
weight 1 and stamp `last_update`; out of range yields the structured
error with the dashboard untouched. -/
noncomputable def update_agent_intent (d : AgentDashboard) (agent_id : ℤ)
    (new_intent : List ℝ) (now : ℕ) : DashResult × AgentDashboard :=
  if 0 ≤ agent_id ∧ agent_id < (d.agents.length : ℤ) then
    let a := d.agents.getD agent_id.toNat default
    ({ success := true,
       error := none,
       message := some "intent updated" },
     { d with
        agents := d.agents.set agent_id.toNat (addIntentA a new_intent 1),
        last_update := now })
  else
    ({ success := false, error := some "Agent ID out of range",
       message := none }, d)

/-- The message of the `KeyError` raised by `entangle_memory`, as the
dashboard surfaces it. -/
def missingKeyMsg (key : String) : String :=
  "Memory key '" ++ key ++ "' missing on one of the agents"

/-- `entangle_agents`: reject self-entanglement, validate both indices
and both capabilities, and surface the `KeyError` of `entangle_memory`
as a structured error; on success write back both mutated agents and
stamp `last_update`. -/
noncomputable def entangle_agents (d : AgentDashboard) (ia ib : ℤ)
    (key : String) (now : ℕ) : DashResult × AgentDashboard :=
  if ia = ib then
    ({ success := false,
       error := some "Cannot entangle an agent with itself",
       message := none }, d)
  else if 0 ≤ ia ∧ ia < (d.agents.length : ℤ) ∧
          0 ≤ ib ∧ ib < (d.agents.length : ℤ) then
    let first := d.agents.getD ia.toNat default
    let second := d.agents.getD ib.toNat default
    if memoryCapable first ∧ memoryCapable second then
      match entangle_memory first second key (1 / 2) with
      | (none, _, _) =>
          ({ success := false, error := some (missingKeyMsg key),
             message := none }, d)
      | (some _, first', second') =>
          ({ success := true, error := none,
             message := some "agents entangled" },
           { d with
              agents := (d.agents.set ia.toNat first').set ib.toNat second',
              last_update := now })
    else
      ({ success := false,
         error := some "Both agents must support entanglement",
         message := none }, d)
  else
    ({ success := false, error := some "Agent ID out of range",
       message := none }, d)

/-- `deactivate_agent`: discard the index from the active set. -/
def deactivate_agent (d : AgentDashboard) (agent_id : ℤ) (now : ℕ) :
    AgentDashboard :=
  { d with active_agents := d.active_agents.erase agent_id,
           last_update := now }

/-- `activate_agent`: add the index to the active set, with no
validation. -/
def activate_agent (d : AgentDashboard) (agent_id : ℤ) (now : ℕ) :
    AgentDashboard :=
  { d with active_agents := insert agent_id d.active_agents,
           last_update := now }

/-! ### Basic norm lemmas -/

lemma sum_sq_nonneg_R (v : List ℝ) : 0 ≤ (v.map (fun x => x * x)).sum := by
  apply List.sum_nonneg
  intro x hx
  simp only [List.mem_map] at hx
  obtain ⟨y, -, rfl⟩ := hx
  exact mul_self_nonneg y

lemma sum_normSq_nonneg (v : List ℂ) : 0 ≤ (v.map Complex.normSq).sum := by
  apply List.sum_nonneg
  intro x hx
  simp only [List.mem_map] at hx
  obtain ⟨y, -, rfl⟩ := hx
  exact Complex.normSq_nonneg y

lemma sq_l2normC (v : List ℂ) :
    l2normC v * l2normC v = (v.map Complex.normSq).sum :=
  Real.mul_self_sqrt (sum_normSq_nonneg v)

lemma sq_l2normR (v : List ℝ) :
    l2normR v * l2normR v = (v.map (fun x => x * x)).sum :=
  Real.mul_self_sqrt (sum_sq_nonneg_R v)

lemma sum_ite_range_of_ge (c : ℝ) {n j : ℕ} (h : n ≤ j) :
    ((List.range n).map (fun i => if i = j then c else 0)).sum = 0 := by
  induction n with
  | zero => simp
  | succ n ih =>
      rw [List.range_succ, List.map_append, List.sum_append,
        ih (Nat.le_of_succ_le h)]
      have : n ≠ j := by omega
      simp [this]

lemma sum_ite_range (c : ℝ) {n j : ℕ} (h : j < n) :
    ((List.range n).map (fun i => if i = j then c else 0)).sum = c := by
  induction n with
  | zero => omega
  | succ n ih =>
      rw [List.range_succ, List.map_append, List.sum_append]
      rcases Nat.lt_succ_iff_lt_or_eq.mp h with h' | h'
      · have : n ≠ j := by omega
        rw [ih h']; simp [this]
      · subst h'
        rw [sum_ite_range_of_ge c (Nat.le_refl j)]; simp

lemma map_normSq_oneHotC (n j : ℕ) :
    (oneHotC n j).map Complex.normSq =
      (List.range n).map (fun i => if i = j then (1 : ℝ) else 0) := by
  rw [oneHotC, List.map_map]
  congr 1
  funext i
  by_cases h : i = j <;> simp [h]

lemma map_sq_oneHotR (n j : ℕ) :
    (oneHotR n j).map (fun x => x * x) =
      (List.range n).map (fun i => if i = j then (1 : ℝ) else 0) := by
  rw [oneHotR, List.map_map]
  congr 1
  funext i
  by_cases h : i = j <;> simp [h]

lemma l2normC_oneHotC {n j : ℕ} (h : j < n) : l2normC (oneHotC n j) = 1 := by
  rw [l2normC, map_normSq_oneHotC, sum_ite_range 1 h, Real.sqrt_one]

lemma l2normR_oneHotR {n j : ℕ} (h : j < n) : l2normR (oneHotR n j) = 1 := by
  rw [l2normR, map_sq_oneHotR, sum_ite_range 1 h, Real.sqrt_one]

lemma sum_pos_of_l2normC_ne {v : List ℂ} (h : l2normC v ≠ 0) :
    0 < (v.map Complex.normSq).sum := by
  rcases lt_or_eq_of_le (sum_normSq_nonneg v) with hlt | heq
  · exact hlt
  · exact absurd (by rw [l2normC, ← heq, Real.sqrt_zero]) h

lemma sum_pos_of_l2normR_ne {v : List ℝ} (h : l2normR v ≠ 0) :
    0 < (v.map (fun x => x * x)).sum := by
  rcases lt_or_eq_of_le (sum_sq_nonneg_R v) with hlt | heq
  · exact hlt
  · exact absurd (by rw [l2normR, ← heq, Real.sqrt_zero]) h

/-- Normalisation with the `|0⟩` fallback always yields a unit vector on
non-empty input (complex case). -/
lemma l2normC_qcNormalizeC {v : List ℂ} (hv : v ≠ []) :
    l2normC (qcNormalizeC v) = 1 := by
  unfold qcNormalizeC
  by_cases h0 : l2normC v = 0
  · rw [if_pos h0]
    exact l2normC_oneHotC (List.length_pos.mpr hv)
  · rw [if_neg h0]
    have hS := sq_l2normC v
    have hSpos := sum_pos_of_l2normC_ne h0
    rw [l2normC, List.map_map]
    have hcomp : (Complex.normSq ∘ fun x => x / (l2normC v : ℂ)) =
        fun x => Complex.normSq x * (l2normC v * l2normC v)⁻¹ := by
      funext x
      simp [Function.comp, Complex.normSq_div, Complex.normSq_ofReal,
        div_eq_mul_inv]
    rw [hcomp, List.sum_map_mul_right, hS,
      mul_inv_cancel₀ (ne_of_gt hSpos), Real.sqrt_one]

/-- Normalisation with the canonical-basis fallback always yields a unit
vector on non-empty input (real case). -/
lemma l2normR_qcNormalizeR {v : List ℝ} (hv : v ≠ []) :
    l2normR (qcNormalizeR v) = 1 := by
  unfold qcNormalizeR
  by_cases h0 : l2normR v = 0
  · rw [if_pos h0]
    exact l2normR_oneHotR (List.length_pos.mpr hv)
  · rw [if_neg h0]
    have hS := sq_l2normR v
    have hSpos := sum_pos_of_l2normR_ne h0
    rw [l2normR, List.map_map]
    have hcomp : ((fun x => x * x) ∘ fun x => x / l2normR v) =
        fun x => x * x * (l2normR v * l2normR v)⁻¹ := by
      funext x
      simp only [Function.comp, div_eq_mul_inv, mul_inv]
      ring
    rw [hcomp, List.sum_map_mul_right, hS,
      mul_inv_cancel₀ (ne_of_gt hSpos), Real.sqrt_one]

lemma length_matVecC (m : List (List ℂ)) (v : List ℂ) :
    (matVecC m v).length = m.length := by
  simp [matVecC]

lemma length_oneHotC (n j : ℕ) : (oneHotC n j).length = n := by
  simp [oneHotC]

lemma epsP_pos : 0 < epsP := by norm_num [epsP]

/-- A fully collapsed sample agent used to instantiate theorems. -/
def sampleAgent : QAgent :=
  { variant := .base, state := [1, 0], intent := [0, 0, 0],
    label := "agent", memory := [], memory_entangled := [] }

/-! ### Coherence lemmas -/

lemma sum_plogp_le {probs : List ℝ} (hnn : ∀ p ∈ probs, 0 ≤ p)
    (hsum : probs.sum = 1) :
    (probs.map (fun p => p * Real.log (p + epsP))).sum ≤
      Real.log (1 + epsP) := by
  have hle1 : ∀ p ∈ probs, p ≤ 1 := by
    intro p hp
    have := List.single_le_sum hnn p hp
    rwa [hsum] at this
  have hstep : (probs.map (fun p => p * Real.log (p + epsP))).sum ≤
      (probs.map (fun p => p * Real.log (1 + epsP))).sum := by
    apply List.sum_le_sum
    intro p hp
    have hp0 := hnn p hp
    apply mul_le_mul_of_nonneg_left _ hp0
    have h1 : 0 < p + epsP := by linarith [epsP_pos]
    exact Real.log_le_log h1 (by linarith [hle1 p hp])
  have hconst : (probs.map (fun p => p * Real.log (1 + epsP))).sum =
      Real.log (1 + epsP) := by
    have := List.sum_map_mul_right probs (fun p => p) (Real.log (1 + epsP))
    simpa [hsum] using this
  linarith [hstep, le_of_eq hconst]

lemma stateCoherence_le {s : List ℂ} (h : (s.map Complex.normSq).sum = 1) :
    stateCoherence s ≤ 1 + epsP := by
  rw [stateCoherence, entropyOf, neg_neg]
  have hnn : ∀ p ∈ s.map Complex.normSq, 0 ≤ p := by
    intro p hp
    simp only [List.mem_map] at hp
    obtain ⟨z, -, rfl⟩ := hp
    exact Complex.normSq_nonneg z
  calc Real.exp ((s.map Complex.normSq).map
        (fun p => p * Real.log (p + epsP))).sum
      ≤ Real.exp (Real.log (1 + epsP)) :=
        Real.exp_le_exp.mpr (sum_plogp_le hnn h)
    _ = 1 + epsP := Real.exp_log (by linarith [epsP_pos])

lemma entropy_oneHot {n j : ℕ} (h : j < n) :
    entropyOf ((oneHotC n j).map Complex.normSq) =
      -(Real.log (1 + epsP)) := by
  rw [map_normSq_oneHotC, entropyOf]
  have hmap : ((List.range n).map
        (fun i => if i = j then (1 : ℝ) else 0)).map
        (fun p => p * Real.log (p + epsP)) =
      (List.range n).map
        (fun i => if i = j then Real.log (1 + epsP) else 0) := by
    rw [List.map_map]
    congr 1
    funext i
    by_cases hij : i = j <;> simp [hij]
  rw [hmap, sum_ite_range _ h]

lemma stateCoherence_oneHot {n j : ℕ} (h : j < n) :
    stateCoherence (oneHotC n j) = 1 + epsP := by
  rw [stateCoherence, entropy_oneHot h, neg_neg,
    Real.exp_log (by linarith [epsP_pos])]

lemma oneHotC_two_zero : oneHotC 2 0 = [1, 0] := by
  simp [oneHotC, List.range_succ]

/-! ### Claim C1 -/

/-- C1 counterexample: for the fully collapsed (one-hot) agent
`sampleAgent`, `coherence` returns `1 + 1e-12`, which is strictly
greater than `1` — so the output is neither in `(0, 1]` nor exactly `1`
on a one-hot state, refuting the claim at this concrete input. -/
theorem c1_counterexample :
    coherence sampleAgent = 1 + epsP ∧ ¬ coherence sampleAgent ≤ 1 := by
  have hcoh : coherence sampleAgent = 1 + epsP := by
    have : sampleAgent.state = oneHotC 2 0 := by
      rw [oneHotC_two_zero]; rfl
    rw [coherence, this]
    exact stateCoherence_oneHot (by omega)
  refine ⟨hcoh, ?_⟩
  rw [hcoh]
  norm_num [epsP]

/-- C1 (amended): for every agent whose state is a valid normalized
vector (its outcome probabilities sum to 1), `coherence()` returns a
value in `(0, 1 + 1e-12]`, and for every one-hot (fully collapsed) state
the returned coherence equals `1 + 1e-12` exactly (not `1`), where
coherence is `exp (-H)` with `H = -Σ p_i · ln (p_i + 1e-12)` and
`p_i = |amplitude_i|²`. -/
theorem c1_amended (a : QAgent)
    (h : (a.state.map Complex.normSq).sum = 1) :
    (0 < coherence a ∧ coherence a ≤ 1 + epsP) ∧
    ∀ n j, j < n → a.state = oneHotC n j → coherence a = 1 + epsP := by
  refine ⟨⟨Real.exp_pos _, stateCoherence_le h⟩, ?_⟩
  intro n j hj hst
  rw [coherence, hst]
  exact stateCoherence_oneHot hj

/-- C1 witness: the amended statement instantiated at the collapsed
sample agent. -/
theorem c1_amended_witness :
    (0 < coherence sampleAgent ∧ coherence sampleAgent ≤ 1 + epsP) ∧
    ∀ n j, j < n → sampleAgent.state = oneHotC n j →
      coherence sampleAgent = 1 + epsP :=
  c1_amended sampleAgent (by simp [sampleAgent])

/-! ### Claim C2 -/

/-- C2: after every mutating state operation — construction,
`apply_unitary`, `measure` with or without a custom basis — the agent's
state has L2 norm exactly 1, and a zero pre-normalization vector is
replaced by the canonical basis state (amplitude 1 at index 0). -/
theorem c2_state_norm_invariant :
    (∀ (var : AgentVariant) (st : List ℂ) (intent : Option (List ℝ))
        (lbl : String), st ≠ [] →
      l2normC (mkAgent var st intent lbl).state = 1) ∧
    (∀ (m : List (List ℂ)) (a : QAgent), m ≠ [] →
      l2normC (apply_unitary m a).state = 1) ∧
    (∀ (a : QAgent) (outcome : ℕ), outcome < a.state.length →
      l2normC (measureStd outcome a).state = 1) ∧
    (∀ (basis : List (List ℂ)) (outcome : ℕ) (a : QAgent),
      basis.getD outcome [] ≠ [] →
      l2normC (measureBasis basis outcome a).state = 1) ∧
    (∀ v : List ℂ, l2normC v = 0 → qcNormalizeC v = canonicalC v.length) := by
  refine ⟨?_, ?_, ?_, ?_, ?_⟩
  · intro var st intent lbl hst
    exact l2normC_qcNormalizeC hst
  · intro m a hm
    apply l2normC_qcNormalizeC
    intro hcon
    exact hm (by simpa [matVecC] using congrArg List.length hcon)
  · intro a outcome hout
    exact l2normC_oneHotC hout
  · intro basis outcome a hb
    exact l2normC_qcNormalizeC hb
  · intro v hv
    rw [qcNormalizeC, if_pos hv]

/-- C2 witness: each conjunct instantiated at concrete inputs. -/
theorem c2_state_norm_invariant_witness :
    l2normC (mkAgent .base [1, 0] none "agent").state = 1 ∧
    l2normC (apply_unitary [[0, 1], [1, 0]] sampleAgent).state = 1 ∧
    l2normC (measureStd 1 sampleAgent).state = 1 ∧
    l2normC (measureBasis [[1, 0], [0, 1]] 0 sampleAgent).state = 1 ∧
    qcNormalizeC [0, 0] = canonicalC ([0, 0] : List ℂ).length :=
  ⟨c2_state_norm_invariant.1 .base [1, 0] none "agent" (by simp),
   c2_state_norm_invariant.2.1 [[0, 1], [1, 0]] sampleAgent (by simp),
   c2_state_norm_invariant.2.2.1 sampleAgent 1 (by simp [sampleAgent]),
   c2_state_norm_invariant.2.2.2.1 [[1, 0], [0, 1]] 0 sampleAgent (by simp),
   c2_state_norm_invariant.2.2.2.2 [0, 0]
     (by simp [l2normC])⟩

/-! ### Claim C3 -/

lemma length_intentReconcile (intent delta : List ℝ) :
    (intentReconcile intent delta).length = delta.length := by
  unfold intentReconcile
  split
  · omega
  · simp
    omega

lemma length_intentPreSum (intent delta : List ℝ) (w : ℝ) :
    (intentPreSum intent delta w).length = delta.length := by
  simp [intentPreSum, vaddR, smulR, length_intentReconcile]

lemma intentPreSum_ne_nil {intent delta : List ℝ} {w : ℝ}
    (hd : delta ≠ []) : intentPreSum intent delta w ≠ [] := by
  intro hcon
  apply hd
  have := congrArg List.length hcon
  rw [length_intentPreSum] at this
  exact List.eq_nil_of_length_eq_zero this

/-- C3 counterexample: blending the zero delta into the zero intent gives
a zero pre-normalization sum, and `add_intent` stores and returns the
canonical basis vector `[1, 0, 0]`, not the all-zero vector the claim
requires. -/
theorem c3_counterexample :
    add_intent [0, 0, 0] [0, 0, 0] 1 = [1, 0, 0] ∧
    ([1, 0, 0] : List ℝ) ≠ [0, 0, 0] := by
  constructor
  · have hpre : intentPreSum [0, 0, 0] [0, 0, 0] 1 = [0, 0, 0] := by
      norm_num [intentPreSum, intentReconcile, vaddR, smulR]
    have hz : l2normR ([0, 0, 0] : List ℝ) = 0 := by
      norm_num [l2normR]
    rw [add_intent, hpre, qcNormalizeR, if_pos hz]
    norm_num [canonicalR, oneHotR, List.range_succ]
  · simp

/-- C3 (amended): when the pre-normalization sum `intent + weight·delta`
is the all-zero vector, `add_intent` stores and returns the canonical
basis vector (1 at index 0, 0 elsewhere), not the zero vector; hence
after any mutating intent operation on a non-empty delta the stored
intent has L2 norm exactly 1 (it is never left all-zero). -/
theorem c3_amended :
    (∀ (intent delta : List ℝ) (w : ℝ), delta ≠ [] →
      l2normR (add_intent intent delta w) = 1) ∧
    (∀ (intent delta : List ℝ) (w : ℝ),
      l2normR (intentPreSum intent delta w) = 0 →
      add_intent intent delta w =
        canonicalR (intentPreSum intent delta w).length) ∧
    (∀ (a : QAgent) (delta : List ℝ) (w : ℝ), delta ≠ [] →
      l2normR (addIntentA a delta w).intent = 1) := by
  refine ⟨?_, ?_, ?_⟩
  · intro intent delta w hd
    exact l2normR_qcNormalizeR (intentPreSum_ne_nil hd)
  · intro intent delta w h0
    rw [add_intent, qcNormalizeR, if_pos h0]
  · intro a delta w hd
    exact l2normR_qcNormalizeR (intentPreSum_ne_nil hd)

/-- C3 witness: the amended statement instantiated at concrete inputs. -/
theorem c3_amended_witness :
    l2normR (add_intent [0, 0, 0] [1, 0, 0] 1) = 1 ∧
    add_intent [0, 0, 0] [0, 0, 0] 1 =
      canonicalR (intentPreSum [0, 0, 0] [0, 0, 0] 1).length ∧
    l2normR (addIntentA sampleAgent [1, 0, 0] 1).intent = 1 :=
  ⟨c3_amended.1 [0, 0, 0] [1, 0, 0] 1 (by simp),
   c3_amended.2.1 [0, 0, 0] [0, 0, 0] 1
     (by norm_num [intentPreSum, intentReconcile, vaddR, smulR, l2normR]),
   c3_amended.2.2 sampleAgent [1, 0, 0] 1 (by simp)⟩

/-! ### Claim C5 -/

lemma entangle_agents_active_len (d : AgentDashboard) (ia ib : ℤ)
    (k : String) (now : ℕ) :
    (entangle_agents d ia ib k now).2.active_agents = d.active_agents ∧
    (entangle_agents d ia ib k now).2.agents.length = d.agents.length := by
  unfold entangle_agents
  split
  · exact ⟨rfl, rfl⟩
  · split
    · dsimp only
      split
      · rcases hmem : entangle_memory (d.agents.getD ia.toNat default)
          (d.agents.getD ib.toNat default) k (1 / 2) with ⟨r, a', b'⟩
        rcases r with - | c
        · simp [hmem]
        · simp [hmem, List.length_set]
      · exact ⟨rfl, rfl⟩
    · exact ⟨rfl, rfl⟩

/-- C5 counterexample: on a one-agent dashboard, `activate_agent 3`
inserts the invalid index 3 into the active set, breaking the claimed
invariant — `activate_agent` performs no validation. -/
theorem c5_counterexample :
    ¬ dashInvariant (activate_agent (initDashboard [sampleAgent] ∅ 0) 3 0) := by
  intro h
  have h3 := h 3 (by simp [activate_agent, initDashboard])
  have : ((3 : ℤ) < ((activate_agent (initDashboard [sampleAgent] ∅ 0)
      3 0).agents.length : ℤ)) := h3.2
  simp [activate_agent, initDashboard] at this

/-- C5 (amended): the active-set invariant (every active index is a valid
index into the agent list) holds after construction with the default
empty active set and is preserved by `deactivate_agent`,
`update_agent_intent` and `entangle_agents` with arbitrary arguments, and
by `activate_agent` only when its argument is in range; `activate_agent`
with an out-of-range integer argument can break it. -/
theorem c5_amended :
    (∀ (agents : List QAgent) (now : ℕ),
      dashInvariant (initDashboard agents ∅ now)) ∧
    (∀ (d : AgentDashboard) (agent_id : ℤ) (now : ℕ), dashInvariant d →
      dashInvariant (deactivate_agent d agent_id now)) ∧
    (∀ (d : AgentDashboard) (agent_id : ℤ) (now : ℕ), dashInvariant d →
      0 ≤ agent_id → agent_id < (d.agents.length : ℤ) →
      dashInvariant (activate_agent d agent_id now)) ∧
    (∀ (d : AgentDashboard) (agent_id : ℤ) (v : List ℝ) (now : ℕ),
      dashInvariant d →
      dashInvariant (update_agent_intent d agent_id v now).2) ∧
    (∀ (d : AgentDashboard) (ia ib : ℤ) (k : String) (now : ℕ),
      dashInvariant d →
      dashInvariant (entangle_agents d ia ib k now).2) := by
  refine ⟨?_, ?_, ?_, ?_, ?_⟩
  · intro agents now i hi
    simp only [initDashboard, if_true, eq_self_iff_true,
      Finset.mem_Ico] at hi ⊢
    exact hi
  · intro d agent_id now hinv i hi
    simp only [deactivate_agent] at hi ⊢
    exact hinv i (Finset.mem_of_mem_erase hi)
  · intro d agent_id now hinv h0 hlt i hi
    simp only [activate_agent, Finset.mem_insert] at hi ⊢
    rcases hi with rfl | hi
    · exact ⟨h0, hlt⟩
    · exact hinv i hi
  · intro d agent_id v now hinv
    unfold update_agent_intent
    split
    · intro i hi
      simp only at hi ⊢
      have := hinv i hi
      simpa [List.length_set] using this
    · exact hinv
  · intro d ia ib k now hinv i hi
    obtain ⟨hact, hlen⟩ := entangle_agents_active_len d ia ib k now
    rw [hact] at hi
    rw [hlen]
    exact hinv i hi

/-- C5 witness: each preserved case of the amended statement at concrete
inputs. -/
theorem c5_amended_witness :
    dashInvariant (initDashboard [sampleAgent] ∅ 0) ∧
    dashInvariant (deactivate_agent (initDashboard [sampleAgent] ∅ 0) 0 1) ∧
    dashInvariant (activate_agent (initDashboard [sampleAgent] ∅ 0) 0 1) ∧
    dashInvariant (update_agent_intent (initDashboard [sampleAgent] ∅ 0)
      0 [1] 1).2 ∧
    dashInvariant (entangle_agents (initDashboard [sampleAgent] ∅ 0)
      0 1 "k" 1).2 :=
  ⟨c5_amended.1 [sampleAgent] 0,
   c5_amended.2.1 _ 0 1 (c5_amended.1 [sampleAgent] 0),
   c5_amended.2.2.1 _ 0 1 (c5_amended.1 [sampleAgent] 0) (by norm_num)
     (by simp [initDashboard]),
   c5_amended.2.2.2.1 _ 0 [1] 1 (c5_amended.1 [sampleAgent] 0),
   c5_amended.2.2.2.2 _ 0 1 "k" 1 (c5_amended.1 [sampleAgent] 0)⟩

/-! ### Claim C9 -/

/-- C9: for every dashboard and every agent index outside
`[0, number of agents)`, `update_agent_intent` returns the structured
result `success = false, error = "Agent ID out of range"` and leaves the
dashboard — agents, active set and `last_update` — entirely unchanged. -/
theorem c9_out_of_range_intent (d : AgentDashboard) (agent_id : ℤ)
    (v : List ℝ) (now : ℕ)
    (h : ¬ (0 ≤ agent_id ∧ agent_id < (d.agents.length : ℤ))) :
    update_agent_intent d agent_id v now =
      ({ success := false, error := some "Agent ID out of range",
         message := none }, d) := by
  rw [update_agent_intent, if_neg h]

/-- C9 witness: `updateAgentIntent 99 [1,2,3]` on a 4-agent dashboard. -/
theorem c9_out_of_range_intent_witness :
    update_agent_intent (initDashboard (List.replicate 4 sampleAgent) ∅ 0)
      99 [1, 2, 3] 1 =
      ({ success := false, error := some "Agent ID out of range",
         message := none },
       initDashboard (List.replicate 4 sampleAgent) ∅ 0) :=
  c9_out_of_range_intent _ 99 [1, 2, 3] 1
    (by simp [initDashboard])

/-! ### Claims C6 and C7 -/

lemma lookupKV_insertKV (k : String) (v : List ℝ)
    (m : List (String × List ℝ)) :
    lookupKV k (insertKV k v m) = some v := by
  induction m with
  | nil => simp [insertKV, lookupKV]
  | cons p rest ih =>
      obtain ⟨k', v'⟩ := p
      by_cases h : k = k'
      · simp [insertKV, lookupKV, h]
      · simp [insertKV, lookupKV, h, ih]

/-- A memory-capable sample agent holding key `"k"`. -/
def memAgentA : QAgent :=
  { variant := .memoryNet, state := [1, 0], intent := [0, 0, 0],
    label := "a", memory := [("k", [1, 0])], memory_entangled := [] }

/-- A second memory-capable sample agent holding key `"k"`. -/
def memAgentB : QAgent :=
  { variant := .memoryNet, state := [1, 0], intent := [0, 0, 0],
    label := "b", memory := [("k", [0, 1])], memory_entangled := [] }

/-- C6: for two agents both holding memory key `key`, `entangle_memory`
with blend strength `s` returns
`normalize (s·a.memory[key] + (1-s)·b.memory[key])`, writes that same
vector into both agents' `memory_entangled[key]`, and — the memory maps
being untouched — calling it again with the same strength returns the
same combined vector and leaves the same entangled values (idempotent on
the result value). -/
theorem c6_entangle_memory (a b : QAgent) (key : String) (s : ℝ)
    (va vb : List ℝ)
    (ha : lookupKV key a.memory = some va)
    (hb : lookupKV key b.memory = some vb) :
    (entangle_memory a b key s).1 =
      some (qcNormalizeR (vaddR (smulR s va) (smulR (1 - s) vb))) ∧
    lookupKV key (entangle_memory a b key s).2.1.memory_entangled =
      (entangle_memory a b key s).1 ∧
    lookupKV key (entangle_memory a b key s).2.2.memory_entangled =
      (entangle_memory a b key s).1 ∧
    (entangle_memory (entangle_memory a b key s).2.1
        (entangle_memory a b key s).2.2 key s).1 =
      (entangle_memory a b key s).1 ∧
    lookupKV key (entangle_memory (entangle_memory a b key s).2.1
        (entangle_memory a b key s).2.2 key s).2.1.memory_entangled =
      (entangle_memory a b key s).1 ∧
    lookupKV key (entangle_memory (entangle_memory a b key s).2.1
        (entangle_memory a b key s).2.2 key s).2.2.memory_entangled =
      (entangle_memory a b key s).1 := by
  simp [entangle_memory, ha, hb, lookupKV_insertKV]

/-- C6 witness: the two sample memory agents entangled on key `"k"` with
strength `1/2`. -/
theorem c6_entangle_memory_witness :
    (entangle_memory memAgentA memAgentB "k" (1 / 2)).1 =
      some (qcNormalizeR (vaddR (smulR (1 / 2) [1, 0])
        (smulR (1 - 1 / 2) [0, 1]))) ∧
    lookupKV "k"
        (entangle_memory memAgentA memAgentB "k" (1 / 2)).2.1.memory_entangled =
      (entangle_memory memAgentA memAgentB "k" (1 / 2)).1 ∧
    lookupKV "k"
        (entangle_memory memAgentA memAgentB "k" (1 / 2)).2.2.memory_entangled =
      (entangle_memory memAgentA memAgentB "k" (1 / 2)).1 ∧
    (entangle_memory (entangle_memory memAgentA memAgentB "k" (1 / 2)).2.1
        (entangle_memory memAgentA memAgentB "k" (1 / 2)).2.2 "k" (1 / 2)).1 =
      (entangle_memory memAgentA memAgentB "k" (1 / 2)).1 ∧
    lookupKV "k"
        (entangle_memory (entangle_memory memAgentA memAgentB "k" (1 / 2)).2.1
          (entangle_memory memAgentA memAgentB "k" (1 / 2)).2.2 "k"
          (1 / 2)).2.1.memory_entangled =
      (entangle_memory memAgentA memAgentB "k" (1 / 2)).1 ∧
    lookupKV "k"
        (entangle_memory (entangle_memory memAgentA memAgentB "k" (1 / 2)).2.1
          (entangle_memory memAgentA memAgentB "k" (1 / 2)).2.2 "k"
          (1 / 2)).2.2.memory_entangled =
      (entangle_memory memAgentA memAgentB "k" (1 / 2)).1 :=
  c6_entangle_memory memAgentA memAgentB "k" (1 / 2) [1, 0] [0, 1]
    (by simp [lookupKV, memAgentA]) (by simp [lookupKV, memAgentB])

/-- C7: when `key` is absent from either agent's memory map,
`entangle_memory` fails (the `KeyError`, modelled as `none`) with both
agents returned entirely unchanged, and the dashboard wrapper
`entangle_agents` surfaces this as a structured error result with the
dashboard — agents and `last_update` included — unchanged. -/
theorem c7_missing_key (a b : QAgent) (key : String) (s : ℝ)
    (h : lookupKV key a.memory = none ∨ lookupKV key b.memory = none) :
    entangle_memory a b key s = (none, a, b) ∧
    (∀ (d : AgentDashboard) (ia ib : ℤ) (now : ℕ),
      ia ≠ ib →
      (0 ≤ ia ∧ ia < (d.agents.length : ℤ) ∧
       0 ≤ ib ∧ ib < (d.agents.length : ℤ)) →
      d.agents.getD ia.toNat default = a →
      d.agents.getD ib.toNat default = b →
      memoryCapable a → memoryCapable b →
      entangle_agents d ia ib key now =
        ({ success := false, error := some (missingKeyMsg key),
           message := none }, d)) := by
  have hfail : ∀ s' : ℝ, entangle_memory a b key s' = (none, a, b) := by
    intro s'
    rcases h with ha | hb
    · rcases hb' : lookupKV key b.memory with - | vb <;>
        simp [entangle_memory, ha, hb']
    · rcases ha' : lookupKV key a.memory with - | va <;>
        simp [entangle_memory, ha', hb]
  refine ⟨hfail s, ?_⟩
  intro d ia ib now hne hrange hga hgb hca hcb
  unfold entangle_agents
  rw [if_neg hne, if_pos hrange]
  dsimp only
  rw [hga, hgb, if_pos ⟨hca, hcb⟩, hfail (1 / 2)]

/-- C7 witness: entangling the two sample agents on the absent key `"q"`
through a two-agent dashboard. -/
theorem c7_missing_key_witness :
    entangle_memory memAgentA memAgentB "q" (1 / 2) =
      (none, memAgentA, memAgentB) ∧
    entangle_agents (initDashboard [memAgentA, memAgentB] ∅ 0) 0 1 "q" 1 =
      ({ success := false, error := some (missingKeyMsg "q"),
         message := none },
       initDashboard [memAgentA, memAgentB] ∅ 0) :=
  ⟨(c7_missing_key memAgentA memAgentB "q" (1 / 2)
      (Or.inl (by simp [lookupKV, memAgentA]))).1,
   (c7_missing_key memAgentA memAgentB "q" (1 / 2)
      (Or.inl (by simp [lookupKV, memAgentA]))).2
     (initDashboard [memAgentA, memAgentB] ∅ 0) 0 1 1 (by norm_num)
     (by simp [initDashboard])
     (by simp [initDashboard])
     (by simp [initDashboard])
     (by simp [memoryCapable, memAgentA])
     (by simp [memoryCapable, memAgentB])⟩

/-! ### Claim C10 -/

/-- C10: for every agent of any capability variant and every mutation
rate, `mutate_agent` returns a newly constructed learning-capable
(`QuantumLearningNetwork`) clone — the parent's variant is not carried
over — with the parent's label and the parent's memory map, while the
clone's `memory_entangled` map starts empty.  In this pure embedding the
parent value itself is returned untouched, matching the source's
construction of a fresh clone. -/
theorem c10_mutate_clone (jS : List ℂ) (jI : List ℝ) (a : QAgent)
    (rate : ℝ) :
    (mutate_agent jS jI a rate).variant = AgentVariant.learningNet ∧
    (mutate_agent jS jI a rate).label = a.label ∧
    (mutate_agent jS jI a rate).memory = a.memory ∧
    (mutate_agent jS jI a rate).memory_entangled = [] :=
  ⟨rfl, rfl, rfl, rfl⟩

/-! ### Evolution-protocol lemmas -/

lemma argsortDesc_length (fitness : List ℝ) :
    (argsortDesc fitness).length = fitness.length := by
  simp [argsortDesc, List.length_mergeSort]

lemma argsortDesc_perm (fitness : List ℝ) :
    (argsortDesc fitness).Perm (List.range fitness.length) := by
  unfold argsortDesc
  exact (List.reverse_perm _).trans (List.mergeSort_perm _ _)

lemma argsortDesc_singleton (x : ℝ) : argsortDesc [x] = [0] := by
  have h := argsortDesc_perm [x]
  have h1 : List.range ([x] : List ℝ).length = [0] := by
    simp [List.range_succ]
  rw [h1] at h
  exact List.perm_singleton.mp h

lemma getD_memory_empty {l : List QAgent}
    (h : ∀ a ∈ l, a.memory = []) (i : ℕ) :
    (l.getD i default).memory = [] := by
  rcases hx : l.get? i with - | x
  · rw [List.getD_eq_get?, hx]
    rfl
  · rw [List.getD_eq_get?, hx]
    exact h x (List.get?_mem hx)

lemma mapM_option_spec {α β : Type} (P : β → Prop) (f : α → Option β)
    (l : List α) (h : ∀ x ∈ l, ∃ y, f x = some y ∧ P y) :
    ∃ ys, l.mapM f = some ys ∧ ys.length = l.length ∧ ∀ y ∈ ys, P y := by
  induction l with
  | nil => exact ⟨[], rfl, rfl, by simp⟩
  | cons x xs ih =>
      obtain ⟨y, hy, hPy⟩ := h x (by simp)
      obtain ⟨ys, hys, hlen, hP⟩ := ih (fun z hz => h z (by simp [hz]))
      refine ⟨y :: ys, ?_, by simp [hlen], ?_⟩
      · rw [List.mapM_cons, hy, hys]
        rfl
      · intro z hz
        rcases List.mem_cons.mp hz with rfl | hz
        · exact hPy
        · exact hP z hz

lemma crossover_empty_left {a b : QAgent} (alpha : ℝ) (pick : ℕ)
    (ha : a.memory = []) :
    ∃ c, crossover_agents alpha pick a b = some c ∧
      c.memory = [] ∧ c.memory_entangled = [] := by
  unfold crossover_agents
  dsimp only
  rw [if_pos (Or.inl ha)]
  exact ⟨_, rfl, rfl, rfl⟩

lemma length_survivorsOf (agents : List QAgent) :
    (survivorsOf agents).length =
      min (max 2 (3 * agents.length / 5)) agents.length := by
  simp [survivorsOf, argsortDesc_length]

lemma survivorsOf_memory_empty {agents : List QAgent}
    (h : ∀ a ∈ agents, a.memory = []) :
    ∀ a ∈ survivorsOf agents, a.memory = [] := by
  intro a ha
  simp only [survivorsOf, List.mem_map] at ha
  obtain ⟨i, -, rfl⟩ := ha
  exact getD_memory_empty h i

lemma mutate_agent_memory (jS : List ℂ) (jI : List ℝ) (a : QAgent)
    (rate : ℝ) : (mutate_agent jS jI a rate).memory = a.memory := rfl

lemma childOf_some {survivors : List QAgent} (rng : EvolutionRng)
    (rate : ℝ) (gen c : ℕ)
    (h : ∀ a ∈ survivors, a.memory = []) :
    ∃ y, childOf rng rate gen c survivors = some y ∧ y.memory = [] := by
  obtain ⟨child, hchild, hcm, -⟩ :=
    crossover_empty_left (a := survivors.getD
        ((rng.pairPick gen c).1 % survivors.length) default)
      (b := survivors.getD
        ((rng.pairPick gen c).2 % survivors.length) default)
      (rng.alpha gen c) (rng.memPick gen c)
      (getD_memory_empty h _)
  refine ⟨mutate_agent (rng.jitterS gen c) (rng.jitterI gen c) child rate,
    ?_, ?_⟩
  · unfold childOf
    rw [hchild]
    rfl
  · rw [mutate_agent_memory]
    exact hcm

/-- Characterisation of one generation on a non-empty population whose
agents all carry empty memory maps: the step succeeds, preserves the
population size and the empty-memory property, and records the maximum
pre-selection fitness. -/
lemma genStep_emptyMem (rng : EvolutionRng) (rate : ℝ) (gen : ℕ)
    (a0 : QAgent) (rest : List QAgent)
    (hmem : ∀ a ∈ a0 :: rest, a.memory = []) :
    ∃ next ev, genStep rng rate gen (a0 :: rest) = some (next, ev) ∧
      next.length = (a0 :: rest).length ∧
      (∀ a ∈ next, a.memory = []) ∧
      ev.generation = gen ∧
      ev.population_size = (a0 :: rest).length ∧
      npMax ((a0 :: rest).map evaluate_agent) = some ev.best_fitness := by
  have hsurv := survivorsOf_memory_empty hmem
  obtain ⟨ys, hys, hyslen, hysmem⟩ := mapM_option_spec
    (fun y => y.memory = [])
    (fun c => childOf rng rate gen c (survivorsOf (a0 :: rest)))
    (List.range ((a0 :: rest).length - (survivorsOf (a0 :: rest)).length))
    (fun c _ => childOf_some rng rate gen c hsurv)
  unfold genStep
  dsimp only
  rw [hys]
  refine ⟨_, _, rfl, ?_, ?_, rfl, ?_, by simp [npMax]⟩
  · have h1 := length_survivorsOf (a0 :: rest)
    simp only [List.length_append, hyslen, List.length_range, h1]
    omega
  · intro a ha
    rcases List.mem_append.mp ha with ha | ha
    · exact hsurv a ha
    · exact hysmem a ha
  · show (survivorsOf (a0 :: rest) ++ ys).length = (a0 :: rest).length
    have h1 := length_survivorsOf (a0 :: rest)
    simp only [List.length_append, hyslen, List.length_range, h1]
    omega

lemma genStep_single (rng : EvolutionRng) (rate : ℝ) (gen : ℕ)
    (a : QAgent) : ∃ ev, genStep rng rate gen [a] = some ([a], ev) := by
  have hsurv : survivorsOf [a] = [a] := by
    unfold survivorsOf
    rw [show ([a] : List QAgent).map evaluate_agent = [evaluate_agent a]
      from rfl, argsortDesc_singleton]
    simp
  unfold genStep
  dsimp only
  rw [hsurv]
  exact ⟨_, rfl⟩

lemma evolveLoop_succ_eq (rng : EvolutionRng) (rate : ℝ) (gen d : ℕ)
    {agents next : List QAgent} {ev : EvolutionEvent}
    (hstep : genStep rng rate gen agents = some (next, ev)) :
    evolveLoop rng rate (d + 1) gen agents =
      ((evolveLoop rng rate d (gen + 1) next).1,
       ev :: (evolveLoop rng rate d (gen + 1) next).2) := by
  conv_lhs => unfold evolveLoop
  rw [hstep]

lemma evolveLoop_succ_fail (rng : EvolutionRng) (rate : ℝ) (gen d : ℕ)
    {agents : List QAgent}
    (hstep : genStep rng rate gen agents = none) :
    evolveLoop rng rate (d + 1) gen agents = (none, []) := by
  conv_lhs => unfold evolveLoop
  rw [hstep]

lemma evolveLoop_single (rng : EvolutionRng) (rate : ℝ) :
    ∀ (d gen : ℕ) (a : QAgent),
    (evolveLoop rng rate d gen [a]).1 = some [a] ∧
    (evolveLoop rng rate d gen [a]).2.length = d := by
  intro d
  induction d with
  | zero => intro gen a; exact ⟨rfl, rfl⟩
  | succ n ih =>
      intro gen a
      obtain ⟨ev, hstep⟩ := genStep_single rng rate gen a
      obtain ⟨ih1, ih2⟩ := ih (gen + 1) a
      rw [evolveLoop_succ_eq rng rate gen n hstep]
      exact ⟨ih1, by simp [ih2]⟩

lemma evolve_single (rng : EvolutionRng) (a : QAgent) (depth : ℕ)
    (rate : ℝ) :
    (recursive_consciousness_evolution rng [a] depth rate).1 = some a ∧
    (recursive_consciousness_evolution rng [a] depth rate).2.length =
      depth := by
  obtain ⟨h1, h2⟩ := evolveLoop_single rng rate depth 0 a
  have heq : recursive_consciousness_evolution rng [a] depth rate =
      (some a, (evolveLoop rng rate depth 0 [a]).2) := by
    unfold recursive_consciousness_evolution
    dsimp only
    rw [h1]
    rfl
  rw [heq]
  exact ⟨rfl, h2⟩

/-- A fixed random oracle used to instantiate evolution runs. -/
noncomputable def rng0 : EvolutionRng :=
  { alpha := fun _ _ => 1 / 2,
    pairPick := fun _ _ => (0, 1),
    memPick := fun _ _ => 0,
    jitterS := fun _ _ => [0, 0],
    jitterI := fun _ _ => [0, 0, 0] }

/-! ### Claim C4 -/

/-- C4 counterexample: `recursive_consciousness_evolution` on a
population of size 1 does not fail at all — no `InsufficientPopulation`
error exists anywhere in the code — it runs its one generation (one
history event is appended, so the loop was entered) and returns the sole
agent. -/
theorem c4_counterexample :
    (recursive_consciousness_evolution rng0 [sampleAgent] 1 (1 / 10)).1 =
      some sampleAgent ∧
    (recursive_consciousness_evolution rng0 [sampleAgent] 1
      (1 / 10)).2.length = 1 :=
  evolve_single rng0 sampleAgent 1 (1 / 10)

/-- C4 (amended): `recursive_consciousness_evolution` performs no
population-size precondition check.  A population of size 1 runs all
`depth` generations without error and returns its sole agent (with one
history record per generation), and a population of size 0 with
`depth ≥ 1` fails inside the first generation (at `np.max` of the empty
fitness array, a `ValueError`), not with an `InsufficientPopulation`
error before the loop. -/
theorem c4_amended :
    (∀ (rng : EvolutionRng) (a : QAgent) (depth : ℕ) (rate : ℝ),
      (recursive_consciousness_evolution rng [a] depth rate).1 = some a ∧
      (recursive_consciousness_evolution rng [a] depth rate).2.length =
        depth) ∧
    (∀ (rng : EvolutionRng) (depth : ℕ) (rate : ℝ), 1 ≤ depth →
      recursive_consciousness_evolution rng [] depth rate = (none, [])) := by
  constructor
  · exact fun rng a depth rate => evolve_single rng a depth rate
  · intro rng depth rate hd
    obtain ⟨n, rfl⟩ : ∃ n, depth = n + 1 := ⟨depth - 1, by omega⟩
    have hloop : evolveLoop rng rate (n + 1) 0 ([] : List QAgent) =
        (none, []) := evolveLoop_succ_fail rng rate 0 n rfl
    unfold recursive_consciousness_evolution
    rw [hloop]

/-- C4 witness: the amended statement at a concrete oracle, agent, depth
and rate. -/
theorem c4_amended_witness :
    ((recursive_consciousness_evolution rng0 [memAgentA] 2 (1 / 10)).1 =
       some memAgentA ∧
     (recursive_consciousness_evolution rng0 [memAgentA] 2
       (1 / 10)).2.length = 2) ∧
    recursive_consciousness_evolution rng0 [] 1 (1 / 10) = (none, []) :=
  ⟨c4_amended.1 rng0 memAgentA 2 (1 / 10),
   c4_amended.2 rng0 1 (1 / 10) (by norm_num)⟩

/-! ### Claim C8 -/

open Classical in
lemma argmaxIdx_cons (x : ℝ) (xs : List ℝ) :
    argmaxIdx (x :: xs) =
      match argmaxIdx xs with
      | none => some 0
      | some j => if xs.getD j 0 ≤ x then some 0 else some (j + 1) := rfl

lemma argmaxIdx_spec : ∀ (l : List ℝ), l ≠ [] →
    ∃ i, argmaxIdx l = some i ∧ i < l.length ∧
      ∀ x ∈ l, x ≤ l.getD i 0 := by
  intro l
  induction l with
  | nil => intro h; exact absurd rfl h
  | cons x xs ih =>
      intro _hne
      by_cases hxs : xs = []
      · subst hxs
        refine ⟨0, rfl, by simp, ?_⟩
        intro y hy
        simp only [List.mem_singleton] at hy
        subst hy
        simp
      · obtain ⟨j, hj, hjlen, hjmax⟩ := ih hxs
        by_cases hle : xs.getD j 0 ≤ x
        · have hcons : argmaxIdx (x :: xs) = some 0 := by
            rw [argmaxIdx_cons, hj]
            dsimp only
            rw [if_pos hle]
          refine ⟨0, hcons, by simp, ?_⟩
          intro y hy
          rcases List.mem_cons.mp hy with rfl | hy
          · simp
          · have := hjmax y hy
            simp only [List.getD_cons_zero]
            linarith
        · have hcons : argmaxIdx (x :: xs) = some (j + 1) := by
            rw [argmaxIdx_cons, hj]
            dsimp only
            rw [if_neg hle]
          refine ⟨j + 1, hcons, by simpa using Nat.succ_lt_succ hjlen, ?_⟩
          intro y hy
          rcases List.mem_cons.mp hy with rfl | hy
          · simp only [List.getD_cons_succ]
            linarith [not_le.mp hle]
          · simp only [List.getD_cons_succ]
            exact hjmax y hy

lemma evolveLoop_emptyMem (rng : EvolutionRng) (rate : ℝ) :
    ∀ (d gen : ℕ) (pop : List QAgent), pop ≠ [] →
    (∀ a ∈ pop, a.memory = []) →
    ∃ fin evs, evolveLoop rng rate d gen pop = (some fin, evs) ∧
      fin.length = pop.length ∧ (∀ a ∈ fin, a.memory = []) ∧ fin ≠ [] ∧
      evs.length = d ∧ ∀ e ∈ evs, e.population_size = pop.length := by
  intro d
  induction d with
  | zero =>
      intro gen pop hne hmem
      exact ⟨pop, [], rfl, rfl, hmem, hne, rfl, by simp⟩
  | succ n ih =>
      intro gen pop hne hmem
      obtain ⟨a0, rest, rfl⟩ := List.exists_cons_of_ne_nil hne
      obtain ⟨next, ev, hstep, hlen, hmem', -, hps, -⟩ :=
        genStep_emptyMem rng rate gen a0 rest hmem
      have hnext_ne : next ≠ [] := by
        intro hcon
        rw [hcon] at hlen
        simp at hlen
      obtain ⟨fin, evs, hloop, hflen, hfmem, hfne, hevlen, hevps⟩ :=
        ih (gen + 1) next hnext_ne hmem'
      refine ⟨fin, ev :: evs, ?_, ?_, hfmem, hfne, by simp [hevlen], ?_⟩
      · rw [evolveLoop_succ_eq rng rate gen n hstep, hloop]
      · rw [hflen, hlen]
      · intro e he
        rcases List.mem_cons.mp he with rfl | he
        · exact hps
        · rw [hevps e he, hlen]

lemma getD_map_evaluate {l : List QAgent} {i : ℕ} (h : i < l.length) :
    (l.map evaluate_agent).getD i 0 =
      evaluate_agent (l.getD i default) := by
  rw [List.getD_eq_getElem _ _ (by simpa using h),
    List.getD_eq_getElem _ _ h, List.getElem_map]

/-- C8 (amended): for every population of size `N ≥ 2` all of whose
agents carry empty memory maps — ruling out the crossover memory-blend
`KeyError` exhibited by the counterexample — and every depth `d ≥ 1`,
`recursive_consciousness_evolution` appends exactly `d` events to the
history, each with `population_size = N` and (per generation)
`best_fitness` equal to the maximum fitness of that generation's
pre-selection population, and it returns a highest-fitness agent of the
final population. -/
theorem c8_amended (rng : EvolutionRng) (pop : List QAgent) (depth : ℕ)
    (rate : ℝ) (h2 : 2 ≤ pop.length) (hd : 1 ≤ depth)
    (hmem : ∀ a ∈ pop, a.memory = []) :
    ∃ best evs,
      recursive_consciousness_evolution rng pop depth rate =
        (some best, evs) ∧
      evs.length = depth ∧
      (∀ e ∈ evs, e.population_size = pop.length) ∧
      (∀ (agents : List QAgent) (gen : ℕ), 2 ≤ agents.length →
        (∀ a ∈ agents, a.memory = []) →
        ∃ next ev, genStep rng rate gen agents = some (next, ev) ∧
          next.length = agents.length ∧ ev.generation = gen ∧
          ev.population_size = agents.length ∧
          npMax (agents.map evaluate_agent) = some ev.best_fitness) ∧
      (∃ fin, (evolveLoop rng rate depth 0 pop).1 = some fin ∧
        fin.length = pop.length ∧ best ∈ fin ∧
        ∀ b ∈ fin, evaluate_agent b ≤ evaluate_agent best) := by
  have hne : pop ≠ [] := by
    intro hcon
    rw [hcon] at h2
    simp at h2
  obtain ⟨fin, evs, hloop, hflen, hfmem, hfne, hevlen, hevps⟩ :=
    evolveLoop_emptyMem rng rate depth 0 pop hne hmem
  have hfmapne : fin.map evaluate_agent ≠ [] := by simp [hfne]
  obtain ⟨i, hargm, hilen, himax⟩ :=
    argmaxIdx_spec (fin.map evaluate_agent) hfmapne
  have hilen' : i < fin.length := by simpa using hilen
  have heq : recursive_consciousness_evolution rng pop depth rate =
      (some (fin.getD i default), evs) := by
    unfold recursive_consciousness_evolution
    dsimp only
    rw [hloop]
    dsimp only
    rw [hargm]
  refine ⟨fin.getD i default, evs, heq, hevlen, hevps, ?_, fin, ?_, hflen,
    ?_, ?_⟩
  · intro agents gen hag hmemag
    have hagne : agents ≠ [] := by
      intro hcon
      rw [hcon] at hag
      simp at hag
    obtain ⟨b0, brest, rfl⟩ := List.exists_cons_of_ne_nil hagne
    obtain ⟨next, ev, ha, hb', -, hc, hd', he⟩ :=
      genStep_emptyMem rng rate gen b0 brest hmemag
    exact ⟨next, ev, ha, hb', hc, hd', he⟩
  · rw [hloop]
  · rw [List.getD_eq_getElem _ _ hilen']
    exact List.getElem_mem _
  · intro b hb
    have hmemb : evaluate_agent b ∈ fin.map evaluate_agent :=
      List.mem_map_of_mem _ hb
    have h3 := himax _ hmemb
    rwa [getD_map_evaluate hilen'] at h3

/-- C8 witness: the amended statement at a concrete empty-memory
population of size 2 with depth 1. -/
theorem c8_amended_witness :
    ∃ best evs,
      recursive_consciousness_evolution rng0 [sampleAgent, sampleAgent] 1
        (1 / 10) = (some best, evs) ∧
      evs.length = 1 ∧
      (∀ e ∈ evs,
        e.population_size = ([sampleAgent, sampleAgent] : List QAgent).length) ∧
      (∀ (agents : List QAgent) (gen : ℕ), 2 ≤ agents.length →
        (∀ a ∈ agents, a.memory = []) →
        ∃ next ev, genStep rng0 (1 / 10) gen agents = some (next, ev) ∧
          next.length = agents.length ∧ ev.generation = gen ∧
          ev.population_size = agents.length ∧
          npMax (agents.map evaluate_agent) = some ev.best_fitness) ∧
      (∃ fin, (evolveLoop rng0 (1 / 10) 1 0
          [sampleAgent, sampleAgent]).1 = some fin ∧
        fin.length = ([sampleAgent, sampleAgent] : List QAgent).length ∧
        best ∈ fin ∧
        ∀ b ∈ fin, evaluate_agent b ≤ evaluate_agent best) :=
  c8_amended rng0 [sampleAgent, sampleAgent] 1 (1 / 10) (by simp)
    (by norm_num) (by simp [sampleAgent])

/-- First agent of the disjoint-memory counterexample population. -/
def agCE0 : QAgent :=
  { variant := .memoryNet, state := [1, 0], intent := [0, 0, 0],
    label := "m0", memory := [("k0", [1])], memory_entangled := [] }

/-- Second agent of the disjoint-memory counterexample population. -/
def agCE1 : QAgent :=
  { variant := .memoryNet, state := [1, 0], intent := [0, 0, 0],
    label := "m1", memory := [("k1", [1])], memory_entangled := [] }

/-- Third agent of the disjoint-memory counterexample population. -/
def agCE2 : QAgent :=
  { variant := .memoryNet, state := [1, 0], intent := [0, 0, 0],
    label := "m2", memory := [("k2", [1])], memory_entangled := [] }

/-- A population of three agents with pairwise-disjoint non-empty
memory maps. -/
def popCE : List QAgent := [agCE0, agCE1, agCE2]

lemma lookup_cross_none {i j : ℕ} (hi : i < 3) (hj : j < 3)
    (hne : i ≠ j) :
    crossover_agents (rng0.alpha 0 0) (rng0.memPick 0 0)
      (popCE.getD i default) (popCE.getD j default) = none := by
  interval_cases i <;> interval_cases j <;>
    first
      | exact absurd rfl hne
      | simp [crossover_agents, popCE, agCE0, agCE1, agCE2, rng0, lookupKV]

lemma genStep_none_of_mapM (rng : EvolutionRng) (rate : ℝ) (gen : ℕ)
    (a0 : QAgent) (rest : List QAgent)
    (h : (List.range ((a0 :: rest).length -
        (survivorsOf (a0 :: rest)).length)).mapM
        (fun c => childOf rng rate gen c (survivorsOf (a0 :: rest))) =
        none) :
    genStep rng rate gen (a0 :: rest) = none := by
  unfold genStep
  dsimp only
  rw [h]

lemma genStep_popCE_none : genStep rng0 (1 / 10) 0 popCE = none := by
  have hlen3 : (popCE.map evaluate_agent).length = 3 := rfl
  have hperm := argsortDesc_perm (popCE.map evaluate_agent)
  rw [hlen3] at hperm
  have hlen : (argsortDesc (popCE.map evaluate_agent)).length = 3 := by
    rw [argsortDesc_length, hlen3]
  obtain ⟨o0, o1, o2, horder⟩ := List.length_eq_three.mp hlen
  have hnodup := (argsortDesc_perm (popCE.map evaluate_agent)).nodup_iff.mpr
    (List.nodup_range _)
  rw [horder] at hnodup hperm
  have hne01 : o0 ≠ o1 := by
    simp only [List.nodup_cons, List.mem_cons, List.mem_singleton] at hnodup
    tauto
  have ho0 : o0 < 3 := by
    have hmem : o0 ∈ List.range 3 := hperm.subset (by simp)
    simpa using hmem
  have ho1 : o1 < 3 := by
    have hmem : o1 ∈ List.range 3 := hperm.subset (by simp)
    simpa using hmem
  have hsurv : survivorsOf popCE =
      [popCE.getD o0 default, popCE.getD o1 default] := by
    unfold survivorsOf
    rw [show popCE.length = 3 from rfl, horder]
    rfl
  have hchild : childOf rng0 (1 / 10) 0 0 (survivorsOf popCE) = none := by
    unfold childOf
    rw [hsurv]
    show (crossover_agents (rng0.alpha 0 0) (rng0.memPick 0 0)
        (popCE.getD o0 default) (popCE.getD o1 default)).map
        (fun child => mutate_agent (rng0.jitterS 0 0) (rng0.jitterI 0 0)
          child (1 / 10)) = none
    rw [lookup_cross_none ho0 ho1 hne01]
    rfl
  have hrangeCE : popCE.length - (survivorsOf popCE).length = 1 := by
    rw [hsurv]
    rfl
  have hmapm : (List.range (popCE.length -
      (survivorsOf popCE).length)).mapM
      (fun c => childOf rng0 (1 / 10) 0 c (survivorsOf popCE)) = none := by
    rw [hrangeCE, show List.range 1 = [0] from rfl]
    simp only [List.mapM_cons]
    rw [hchild]
    rfl
  exact genStep_none_of_mapM rng0 (1 / 10) 0 agCE0 [agCE1, agCE2] hmapm

/-- C8 counterexample: on the three-agent population with pairwise
disjoint memory keys, the first generation's reproduction step picks a
memory key of one parent that is absent from the other, the crossover
`KeyError` aborts the run, and the call appends no event at all — not
the claimed one event per generation with `population_size = 3` and a
returned best agent. -/
theorem c8_counterexample :
    recursive_consciousness_evolution rng0 popCE 1 (1 / 10) = (none, []) ∧
    (recursive_consciousness_evolution rng0 popCE 1 (1 / 10)).2.length ≠
      1 := by
  have hloop : evolveLoop rng0 (1 / 10) 1 0 popCE = (none, []) :=
    evolveLoop_succ_fail rng0 (1 / 10) 0 0 genStep_popCE_none
  have heq : recursive_consciousness_evolution rng0 popCE 1 (1 / 10) =
      (none, []) := by
    unfold recursive_consciousness_evolution
    dsimp only
    rw [hloop]
  refine ⟨heq, ?_⟩
  rw [heq]
  simp

end AgotheSpec
